import Mathlib

/-!
Verification development for the splitwise-visualization analytics backend.

The TypeScript services under `backend/src/services` and the advanced
analytics service in `backend/src/index.ts` are shallowly embedded here:

* JS numbers are modelled as exact rationals (`ℚ`); the single place where
  the code can produce a NaN (the confidence divide-by-zero in
  `getBudgetIntelligence`) is modelled explicitly with `Option ℚ`
  (`none` = NaN).
* JS `Map` objects (insertion-ordered, `set` overwrites in place) are
  modelled as association lists with `mapSet` / `mapGet`.
* JS `Array.prototype.sort` (stable) is modelled by a stable insertion
  sort `jsSortStable`.
* JS string `<` / `>` compare code units; dates here are ASCII, so the
  code-point comparison `charListLt` is the same order.
-/

namespace SplitViz

/-- One person's share of a transaction (`PersonShare` in Transaction.ts). -/
structure PersonShare where
  name : String
  amount : ℚ
deriving DecidableEq, Repr

/-- A single CSV transaction (`Transaction` in Transaction.ts). -/
structure Transaction where
  date : String
  description : String
  category : String
  cost : ℚ
  currency : String
  shares : List PersonShare
deriving DecidableEq, Repr

/-- A suggested grouping of store-name variations (`StoreGrouping`). -/
structure StoreGrouping where
  canonicalName : String
  variations : List String
deriving DecidableEq, Repr

/-- Filter specification (`AnalysisFilters`); `none` = field absent. -/
structure AnalysisFilters where
  startDate : Option String := none
  endDate : Option String := none
  people : Option (List String) := none
  categories : Option (List String) := none
  stores : Option (List String) := none
deriving DecidableEq, Repr

/-- The persisted store mapping object `{[canonicalName]: string[]}`,
as an insertion-ordered list of (canonical, variations) entries. -/
abbrev StoreMappings := List (String × List String)

/-- One point of aggregated spending data (`SpendingData`). -/
structure SpendingData where
  label : String
  amount : ℚ
deriving DecidableEq, Repr

/-! ### JS primitives: Map, sort, string comparison -/

/-- JS `Map.prototype.set` / object key assignment: overwrite in place if the
key exists, else append at the end (insertion order preserved). -/
def mapSet {α : Type} : List (String × α) → String → α → List (String × α)
  | [], k, v => [(k, v)]
  | (k', v') :: rest, k, v =>
    if k' = k then (k, v) :: rest else (k', v') :: mapSet rest k v

/-- JS `Map.prototype.get` / object key lookup. -/
def mapGet {α : Type} : List (String × α) → String → Option α
  | [], _ => none
  | (k', v) :: rest, k => if k' = k then some v else mapGet rest k

/-- Lexicographic comparison of code points: the order JS `<` puts on the
ASCII strings used here (dates, labels). -/
def charListLt : List Char → List Char → Bool
  | [], [] => false
  | [], _ :: _ => true
  | _ :: _, [] => false
  | a :: as, b :: bs =>
    if a.toNat < b.toNat then true
    else if b.toNat < a.toNat then false
    else charListLt as bs

/-- JS string `a < b` on code units (identical to code points for ASCII). -/
def strLt (a b : String) : Bool := charListLt a.data b.data

/-- Stable insertion step: `x` is placed after every element `y` of the
already-sorted list with `le y x`. -/
def stableInsert {α : Type} (le : α → α → Bool) (x : α) : List α → List α
  | [] => [x]
  | y :: ys => if le y x then y :: stableInsert le x ys else x :: y :: ys

/-- JS `Array.prototype.sort` with a total preorder comparator: stable
insertion sort (ES2019 requires sort stability). -/
def jsSortStable {α : Type} (le : α → α → Bool) (l : List α) : List α :=
  l.foldl (fun acc x => stableInsert le x acc) []

/-! ### TransactionFilter (AnalysisService.filterTransactions, mapping-aware
version, part_012 lines 144-224) -/

/-- JS truthiness of an optional string (`filters.startDate &&`):
`undefined` and `""` are falsy. -/
def strActive : Option String → Bool
  | some s => !s.isEmpty
  | none => false

/-- JS truthiness of `filters.xs?.length`. -/
def listActive : Option (List String) → Bool
  | some l => !l.isEmpty
  | none => false

/-- `AnalysisService.createStoreMapping`: reverse index mapping each
canonical name to itself and each variation to its canonical name;
later entries overwrite earlier ones, as `Map.set` does. -/
def createStoreMapping (storeMappings : StoreMappings) : List (String × String) :=
  storeMappings.foldl
    (fun acc p => p.2.foldl (fun a v => mapSet a v p.1) (mapSet acc p.1 p.1)) []

/-- The per-transaction predicate of `AnalysisService.filterTransactions`. -/
def passesFilters (stc : List (String × String)) (filters : AnalysisFilters)
    (t : Transaction) : Bool :=
  if strActive filters.startDate && strLt t.date (filters.startDate.getD "") then false
  else if strActive filters.endDate && strLt (filters.endDate.getD "") t.date then false
  else if listActive filters.categories
      && !(filters.categories.getD []).contains t.category then false
  else if listActive filters.stores
      && (match mapGet stc t.description with
          | none => true
          | some c => !(filters.stores.getD []).contains c) then false
  else if listActive filters.people
      && !(filters.people.getD []).any
            (fun person => (t.shares.map (·.name)).contains person) then false
  else true

/-- `AnalysisService.filterTransactions` (mapping-aware version). -/
def filterTransactions (transactions : List Transaction)
    (filters : AnalysisFilters) (storeMappings : StoreMappings) : List Transaction :=
  transactions.filter (passesFilters (createStoreMapping storeMappings) filters)

/-! ### AggregationEngine: getSpendingOverTime -/

/-- Grouping interval of `getSpendingOverTime`. -/
inductive Interval
  | day
  | week
  | month
deriving DecidableEq, Repr

/-- `date.substring(0, 7)` (the `YYYY-MM` month key), via the character
list so that it evaluates structurally; identical for the ASCII dates used. -/
def monthKey (s : String) : String := ⟨s.data.take 7⟩

/-- The bucket key of a transaction. The week key is computed in JS with
local-timezone `Date` arithmetic (`date.getDate() - date.getDay()` then
`toISOString`), which depends on the host environment, so it is taken
here as an arbitrary function `weekFn` of the date string; the day and
month keys are exact (`substring(0, 7)` = `String.take 7` on ASCII). -/
def groupKey (weekFn : String → String) : Interval → Transaction → String
  | .day, t => t.date
  | .week, t => weekFn t.date
  | .month, t => monthKey t.date

/-- The accumulation loop shared by the aggregation functions:
`map.set(k, (map.get(k) || 0) + v)` over a list of (key, value)
contributions. (`|| 0` and `.getD 0` agree: both replace a missing value,
and JS additionally replaces a stored `0` by `0`.) -/
def bucketAcc (init : List (String × ℚ)) (l : List (String × ℚ)) :
    List (String × ℚ) :=
  l.foldl (fun m p => mapSet m p.1 ((mapGet m p.1).getD 0 + p.2)) init

/-- `AnalysisService.getSpendingOverTime`: filter, bucket by the interval
key summing `cost`, then sort ascending by label. -/
def getSpendingOverTime (weekFn : String → String)
    (transactions : List Transaction) (filters : AnalysisFilters)
    (storeMappings : StoreMappings) (interval : Interval) : List SpendingData :=
  let filtered := filterTransactions transactions filters storeMappings
  let grouped := bucketAcc []
    (filtered.map (fun t => (groupKey weekFn interval t, t.cost)))
  jsSortStable (fun a b => !strLt b.label a.label)
    (grouped.map (fun p => ⟨p.1, p.2⟩))

/-! ### AggregationEngine: getDetailedTransactions -/

/-- The canonical-name rewrite used by `getDetailedTransactions`:
replace a description by its canonical name where mapped. -/
def canonicalize (stc : List (String × String)) (t : Transaction) : Transaction :=
  match mapGet stc t.description with
  | some c => { t with description := c }
  | none => t

/-- The filtered list with canonical store names, as built inside
`AnalysisService.getDetailedTransactions` before slicing. -/
def transformedTransactions (transactions : List Transaction)
    (filters : AnalysisFilters) (storeMappings : StoreMappings) : List Transaction :=
  (filterTransactions transactions filters storeMappings).map
    (canonicalize (createStoreMapping storeMappings))

/-- `AnalysisService.getDetailedTransactions`: filter, canonicalize
descriptions, return the slice `[(page-1)*pageSize, page*pageSize)` and the
total count. -/
def getDetailedTransactions (transactions : List Transaction)
    (filters : AnalysisFilters) (storeMappings : StoreMappings)
    (page pageSize : ℕ) : List Transaction × ℕ :=
  let transformed := transformedTransactions transactions filters storeMappings
  (((transformed.drop ((page - 1) * pageSize)).take pageSize), transformed.length)

/-! ### StoreNameResolver (StoreAnalysisService, part_011) -/

/-- A character kept by the normalization regex replace: JS `\w` (ASCII
alphanumeric or underscore) or `\s` (whitespace). -/
def isWordOrSpace (c : Char) : Bool :=
  c.isAlphanum || c = '_' || c.isWhitespace

/-- `name.toLowerCase().replace(/[^\w\s]/g, '')`. Non-ASCII letters are
removed by the `\w\s` filter in both JS and this model, so ASCII-only
`Char.toLower` gives the same result. -/
def normalizeName (s : String) : String :=
  ⟨(s.data.map Char.toLower).filter isWordOrSpace⟩

/-- Inner loop of one row of the Levenshtein dynamic program: walks the
second word and the previous row in lockstep, carrying the cell to the
left. -/
def levGo (x : Char) : List Char → List Nat → Nat → List Nat
  | c :: cs, pj :: pj1 :: prest, left =>
    let cell := min (pj + (if x = c then 0 else 1)) (min (pj1 + 1) (left + 1))
    cell :: levGo x cs (pj1 :: prest) cell
  | _, _, _ => []

/-- One row update of the Levenshtein dynamic program (the row-by-row
scheme the `fast-levenshtein` package implements). -/
def levRow (b : List Char) (prev : List Nat) (x : Char) : List Nat :=
  (prev.headD 0 + 1) :: levGo x b prev (prev.headD 0 + 1)

/-- `levenshtein.get`: unit-cost edit distance. -/
def levenshtein (a b : String) : Nat :=
  (a.data.foldl (levRow b.data) (List.range (b.data.length + 1))).getLastD 0

/-- The similarity test `1 - distance / max(lenA, lenB) > 0.8` of
`analyzeSimilarStores`, encoded over the integers: for `mx > 0` it is
equivalent to `5 * (mx - d) > 4 * mx`, and for `mx = 0` JS computes
`NaN > 0.8 = false`, which the encoding also yields (`0 > 0`). All
quantities are integers, so the comparison is exact. -/
def similarityAbove (d mx : ℕ) : Bool :=
  (5 : ℤ) * ((mx : ℤ) - (d : ℤ)) > 4 * (mx : ℤ)

/-- Distinct-preserving-first-occurrence helper for `[...new Set(xs)]`. -/
def dedupAux (seen : List String) : List String → List String
  | [] => []
  | x :: xs => if seen.contains x then dedupAux seen xs
               else x :: dedupAux (x :: seen) xs

/-- `[...new Set(xs)]`: distinct values in first-occurrence order. -/
def dedupFirst (l : List String) : List String := dedupAux [] l

/-- Number of transactions whose description is `name`. -/
def countOcc (name : String) (transactions : List Transaction) : ℕ :=
  (transactions.filter (fun t => t.description = name)).length

/-- First entry of maximal count: the head of a stable descending sort by
count, which is how `[...counts.entries()].sort((a,b) => b[1]-a[1])[0]`
selects it. -/
def argmaxFirst : List (String × ℕ) → Option (String × ℕ)
  | [] => none
  | e :: rest => some (rest.foldl (fun best p => if p.2 > best.2 then p else best) e)

/-- `StoreAnalysisService.findMostFrequent`: build the count map in list
order, stable-sort descending by count, take `[0][0]`. On an empty name
list the JS code evaluates `undefined[0]` and throws a TypeError, modelled
by `none`. -/
def findMostFrequent (names : List String) (transactions : List Transaction) :
    Option String :=
  let counts := names.foldl (fun m n => mapSet m n (countOcc n transactions)) []
  (argmaxFirst counts).map Prod.fst

/-- Inner `forEach` of `analyzeSimilarStores`: collect the names similar to
`orig`, updating the processed set as matches are consumed. -/
def collectSimilar (orig norm : String) (pairs : List (String × String))
    (processed : List String) : List String × List String :=
  pairs.foldl
    (fun acc p =>
      if orig ≠ p.1 && !acc.2.contains p.1
          && similarityAbove (levenshtein norm p.2) (max norm.length p.2.length) then
        (acc.1 ++ [p.1], p.1 :: acc.2)
      else acc)
    ([orig], orig :: processed)

/-- Outer `forEach` of `analyzeSimilarStores` over the (original,
normalized) name pairs, threading the processed set and the `groups`
object. -/
def analyzeLoop (pairs : List (String × String)) (transactions : List Transaction) :
    List (String × String) → List String → List (String × List String) →
    List (String × List String)
  | [], _, groups => groups
  | (orig, norm) :: rest, processed, groups =>
    if processed.contains orig then analyzeLoop pairs transactions rest processed groups
    else
      let r := collectSimilar orig norm pairs processed
      if r.1.length > 1 then
        let canonical := (findMostFrequent r.1 transactions).getD ""
        analyzeLoop pairs transactions rest r.2
          (mapSet groups canonical (r.1.filter (· ≠ canonical)))
      else analyzeLoop pairs transactions rest r.2 groups

/-- `StoreAnalysisService.analyzeSimilarStores`. -/
def analyzeSimilarStores (transactions : List Transaction) : List StoreGrouping :=
  let storeNames := dedupFirst (transactions.map (·.description))
  let pairs := storeNames.map (fun n => (n, normalizeName n))
  (analyzeLoop pairs transactions pairs [] []).map (fun p => ⟨p.1, p.2⟩)

/-- `StoreAnalysisService.splitGroup`. With an empty `variationsToSplit`
the JS code reaches `findMostFrequent([])`, which evaluates
`[][0][0]` and throws a TypeError; the throw is modelled by `none`. -/
def splitGroup (group : StoreGrouping) (variationsToSplit : List String)
    (transactions : List Transaction) :
    Option (StoreGrouping × StoreGrouping × List Transaction) :=
  let originalGroup : StoreGrouping :=
    ⟨group.canonicalName, group.variations.filter (fun v => !variationsToSplit.contains v)⟩
  match findMostFrequent variationsToSplit transactions with
  | none => none
  | some canonicalName =>
    let newGroup : StoreGrouping :=
      ⟨canonicalName, variationsToSplit.filter (· ≠ canonicalName)⟩
    let updated := transactions.map (fun t =>
      if variationsToSplit.contains t.description then { t with description := canonicalName }
      else t)
    some (originalGroup, newGroup, updated)

/-- The reverse index of `StoreAnalysisService.applyStoreMappings`
(variation → canonical only; unlike `createStoreMapping` it does not map a
canonical name to itself). -/
def reverseMap (mappings : StoreMappings) : List (String × String) :=
  mappings.foldl (fun acc p => p.2.foldl (fun a v => mapSet a v p.1) acc) []

/-- `StoreAnalysisService.applyStoreMappings`. -/
def applyStoreMappings (transactions : List Transaction)
    (mappings : StoreMappings) : List Transaction :=
  let rm := reverseMap mappings
  transactions.map (fun t =>
    match mapGet rm t.description with
    | some c => { t with description := c }
    | none => t)

/-! ### BalanceLedger (AdvancedAnalyticsService.getBalanceAnalytics) -/

/-- The ledger's chronological sort: stable sort ascending by date
(`[...transactions].sort((a,b) => a.date.localeCompare(b.date))`; for the
ASCII dates used the locale order is the code-unit order). -/
def sortByDate (transactions : List Transaction) : List Transaction :=
  jsSortStable (fun a b => !strLt b.date a.date) transactions

/-- The running-balance fold of `getBalanceAnalytics`: for each transaction
in order, for each share, add `amount` to that person's total. -/
def accumBalances (transactions : List Transaction) : List (String × ℚ) :=
  transactions.foldl
    (fun m t => t.shares.foldl
      (fun m' s => mapSet m' s.name ((mapGet m' s.name).getD 0 + s.amount)) m)
    []

/-- `getBalanceAnalytics(...).currentBalance`, as a lookup: the final
running total per person (`none` = the person never appears). -/
def currentBalance (transactions : List Transaction) (person : String) : Option ℚ :=
  mapGet (accumBalances (sortByDate transactions)) person

/-- All share names of a transaction list, with the share multiplicity. -/
def shareNames (transactions : List Transaction) : List String :=
  (transactions.flatMap (·.shares)).map (·.name)

/-- Specification-side sum: total of `amount` over every share entry named
`person` across all transactions. -/
def shareSum (transactions : List Transaction) (person : String) : ℚ :=
  (((transactions.flatMap (·.shares)).filter (fun s => s.name = person)).map
    (·.amount)).sum

/-! ### BudgetIntelligence (AdvancedAnalyticsService.getBudgetIntelligence) -/

/-- Trend classification of a category. -/
inductive Trend
  | increasing
  | decreasing
  | stable
deriving DecidableEq, Repr

/-- One entry of `getBudgetIntelligence().categoryRecommendations`.
`confidence` is `Option ℚ`: `none` models the IEEE NaN the JS code
produces on its unguarded `0/0`. -/
structure CategoryRec where
  category : String
  suggestedBudget : ℚ
  currentMonthlyAverage : ℚ
  trend : Trend
  confidence : Option ℚ
deriving DecidableEq, Repr

/-- Transactions of one category, in order (`transactions.filter`). -/
def categoryTransactions (transactions : List Transaction) (c : String) :
    List Transaction :=
  transactions.filter (fun t => t.category = c)

/-- The per-month sums of a category, in first-encounter order of the
months (the JS `Map` iteration order). `format(parseISO(date), 'yyyy-MM')`
is the first seven characters of a well-formed ISO date (`monthKey`). -/
def monthlyAmountsOf (transactions : List Transaction) (c : String) : List ℚ :=
  (bucketAcc []
    ((categoryTransactions transactions c).map (fun t => (monthKey t.date, t.cost)))).map
    (·.2)

/-- Mean of the last two entries: `slice(-2)` summed and divided by 2. -/
def lastTwoMean (l : List ℚ) : ℚ := (l.drop (l.length - 2)).sum / 2

/-- Half the sum of `slice(-4, -2)`: the "mean of the prior two months",
where with exactly three months of data only one prior month exists and
the missing month counts as 0. -/
def priorTwoMean (l : List ℚ) : ℚ := ((l.take (l.length - 2)).drop (l.length - 4)).sum / 2

/-- The trend rule of `getBudgetIntelligence`: with at least 3 monthly
buckets, `increasing` if the last-two mean exceeds 1.1 times the prior-two
mean, else `decreasing` if below 0.9 times it, else `stable`. -/
def trendOf (l : List ℚ) : Trend :=
  if 3 ≤ l.length then
    if lastTwoMean l > 11 / 10 * priorTwoMean l then .increasing
    else if lastTwoMean l < 9 / 10 * priorTwoMean l then .decreasing
    else .stable
  else .stable

/-- `Math.max(0, Math.min(1, 1 - s / a))` under IEEE semantics, with exact
rational inputs: for `a ≠ 0` everything is finite and the clamp applies;
for `a = 0` JS yields `s/0 = +Infinity` when `s > 0` (the clamp then gives
`0`), `-Infinity` when `s < 0` (the clamp gives `1`), and NaN when
`s = 0`, which both `Math.min` and `Math.max` propagate — modelled as
`none`. -/
def jsConfidence (s a : ℚ) : Option ℚ :=
  if a ≠ 0 then some (max 0 (min 1 (1 - s / a)))
  else if s > 0 then some 0
  else if s < 0 then some 1
  else none

/-- Population variance of the monthly sums as the code computes it
(`0` when fewer than two months exist). -/
def varianceOf (l : List ℚ) : ℚ :=
  if 1 < l.length then
    let avg := l.sum / (l.length : ℚ)
    ((l.map (fun x => (x - avg) ^ 2)).sum) / (l.length : ℚ)
  else 0

/-- One `categoryRecommendations` entry. `Math.sqrt` is a float
operation with no exact rational counterpart, so it enters as a parameter
`sqrtFn`; every theorem below either holds for all `sqrtFn` with
`0 ≤ x → 0 ≤ sqrtFn x` (the square-root contract) or evaluates it only
at `0`, where `Math.sqrt 0 = 0` exactly. -/
def mkCategoryRec (sqrtFn : ℚ → ℚ) (transactions : List Transaction)
    (c : String) : CategoryRec :=
  let l := monthlyAmountsOf transactions c
  let avg := if 0 < l.length then l.sum / (l.length : ℚ) else 0
  { category := c
    suggestedBudget := avg * (12 / 10)
    currentMonthlyAverage := avg
    trend := trendOf l
    confidence := jsConfidence (sqrtFn (varianceOf l)) avg }

/-- `getBudgetIntelligence(...).categoryRecommendations`: one entry per
distinct category (a category drawn from the transactions always has at
least one transaction, so the `length === 0` early return never fires,
but it is modelled faithfully). -/
def budgetRecs (sqrtFn : ℚ → ℚ) (transactions : List Transaction) :
    List CategoryRec :=
  (dedupFirst (transactions.map (·.category))).filterMap
    (fun c =>
      if (categoryTransactions transactions c).length = 0 then none
      else some (mkCategoryRec sqrtFn transactions c))

/-- The sum of `cost` over the filtered transactions whose interval key is
`label` — the claimed value of the bucket labelled `label`. -/
def bucketTotal (weekFn : String → String) (transactions : List Transaction)
    (filters : AnalysisFilters) (storeMappings : StoreMappings)
    (interval : Interval) (label : String) : ℚ :=
  (((filterTransactions transactions filters storeMappings).filter
      (fun t => groupKey weekFn interval t = label)).map (·.cost)).sum

/-! ### Concrete fixtures used by witnesses and counterexamples -/

/-- Fixture: one transaction with an integer cost. -/
def wTxn : Transaction :=
  ⟨"2025-01-05", "Corner Shop", "Groceries", 42, "USD", [⟨"A", 42⟩]⟩

/-- Fixture: the first transaction of the spec's end-to-end scenario. -/
def mayuri1 : Transaction :=
  ⟨"2025-02-24", "Mayuri", "Groceries", 4256/100, "USD",
    [⟨"A", 2128/100⟩, ⟨"B", -(2128/100)⟩]⟩

/-- Fixture: the second transaction of the spec's end-to-end scenario. -/
def mayuri2 : Transaction :=
  ⟨"2025-02-25", "Mayuri Store", "Groceries", 2762/100, "USD",
    [⟨"A", 1381/100⟩, ⟨"B", -(1381/100)⟩]⟩

/-- Fixture: two near-duplicate store names that do cluster. -/
def sbTxns : List Transaction :=
  [⟨"2025-01-01", "Starbucks", "Dining out", 5, "USD", [⟨"A", 5⟩]⟩,
   ⟨"2025-01-02", "Starbucks!", "Dining out", 7, "USD", [⟨"A", 7⟩]⟩]

/-- Fixture: a transaction at store "A". -/
def txnA : Transaction := ⟨"2025-01-01", "A", "Misc", 3, "USD", []⟩

/-- Fixture: a chained store mapping — "A" is a variation of canonical "B",
which is itself a variation of canonical "C". -/
def chainMapping : StoreMappings := [("B", ["A"]), ("C", ["B"])]

/-- Fixture: a store mapping whose canonical name is not a variation. -/
def plainMapping : StoreMappings := [("C", ["A", "B"])]

/-- Fixture: a transaction at store "Y". -/
def txnY : Transaction := ⟨"2025-03-01", "Y", "Misc", 7, "USD", []⟩

/-- Fixture: a mapping renaming "Y" to canonical "X". -/
def mappingXY : StoreMappings := [("X", ["Y"])]

/-- Fixture: a single zero-cost transaction (monthly average 0). -/
def zeroTxns : List Transaction :=
  [⟨"2025-01-05", "Corner Shop", "Groceries", 0, "USD", []⟩]

/-- Fixture: three months of category "X" with monthly sums -20, -20, 0 —
the last-two mean (-10) is both above 1.1× and below 0.9× the prior-two
mean (-10), since that mean is negative. -/
def negTxns : List Transaction :=
  [⟨"2025-01-05", "S", "X", -20, "USD", []⟩,
   ⟨"2025-02-05", "S", "X", -20, "USD", []⟩,
   ⟨"2025-03-05", "S", "X", 0, "USD", []⟩]

/-- Fixture: a store grouping. -/
def groupABC : StoreGrouping := ⟨"A", ["B", "C"]⟩

/-- Fixture: the default transaction used to state index access totally. -/
def defaultTxn : Transaction := ⟨"", "", "", 0, "", []⟩

/-- The invariant of one entry of the `groups` object built by
`analyzeSimilarStores`, relative to a universe `names` of store names:
the canonical name is not among its variations, the variations are
pairwise distinct, and every name is drawn from `names`. -/
def GroupInv (names : List String) (e : String × List String) : Prop :=
  e.1 ∉ e.2 ∧ e.2.Nodup ∧ e.1 ∈ names ∧ ∀ v ∈ e.2, v ∈ names

/-! ### Generic lemmas about the JS Map model -/

/-- Total contribution of key `k` in a list of (key, value) pairs. -/
def totalFor (k : String) (l : List (String × ℚ)) : ℚ :=
  ((l.filter (fun p => p.1 = k)).map (·.2)).sum

/-- Sum of all stored values of a map. -/
def valuesSum (m : List (String × ℚ)) : ℚ := (m.map (·.2)).sum

theorem mapGet_mapSet_self {α : Type} (m : List (String × α)) (k : String) (v : α) :
    mapGet (mapSet m k v) k = some v := by
  induction m with
  | nil => simp [mapSet, mapGet]
  | cons p rest ih =>
    by_cases h : p.1 = k
    · simp [mapSet, mapGet, h]
    · simp only [mapSet, mapGet, h, if_false]
      simpa [mapGet, h] using ih

theorem mapGet_mapSet_ne {α : Type} (m : List (String × α)) {k k' : String} (v : α)
    (h : k ≠ k') : mapGet (mapSet m k v) k' = mapGet m k' := by
  induction m with
  | nil => simp [mapSet, mapGet, h]
  | cons p rest ih =>
    by_cases hp : p.1 = k
    · simp [mapSet, mapGet, hp, h]
    · simp only [mapSet, mapGet, hp, if_false]
      by_cases hp' : p.1 = k'
      · simp [mapGet, hp']
      · simpa [mapGet, hp'] using ih

theorem keys_mapSet {α : Type} (m : List (String × α)) (k : String) (v : α) :
    (mapSet m k v).map Prod.fst = m.map Prod.fst
      ∨ (mapSet m k v).map Prod.fst = m.map Prod.fst ++ [k] := by
  induction m with
  | nil => right; simp [mapSet]
  | cons p rest ih =>
    by_cases h : p.1 = k
    · left; simp [mapSet, h]
    · rcases ih with ih | ih
      · left; simp [mapSet, h, ih]
      · right; simp [mapSet, h, ih]

theorem keys_nodup_mapSet {α : Type} (m : List (String × α)) (k : String) (v : α)
    (h : (m.map Prod.fst).Nodup) : ((mapSet m k v).map Prod.fst).Nodup := by
  induction m with
  | nil => simp [mapSet]
  | cons p rest ih =>
    simp only [List.map_cons, List.nodup_cons] at h
    by_cases hp : p.1 = k
    · simp only [mapSet, hp, if_true, List.map_cons, List.nodup_cons]
      exact ⟨hp ▸ h.1, h.2⟩
    · simp only [mapSet, hp, if_false, List.map_cons, List.nodup_cons]
      refine ⟨?_, ih h.2⟩
      rcases keys_mapSet rest k v with hk | hk
      · rw [hk]; exact h.1
      · rw [hk]
        simp only [List.mem_append, List.mem_singleton]
        rintro (hin | rfl)
        · exact h.1 hin
        · exact hp rfl

theorem mapGet_of_mem_nodup {α : Type} {m : List (String × α)} {k : String} {v : α}
    (hn : (m.map Prod.fst).Nodup) (hm : (k, v) ∈ m) : mapGet m k = some v := by
  induction m with
  | nil => cases hm
  | cons p rest ih =>
    simp only [List.map_cons, List.nodup_cons] at hn
    rcases List.mem_cons.mp hm with rfl | hm'
    · simp [mapGet]
    · have hk : p.1 ≠ k := by
        intro hpk
        exact hn.1 (hpk ▸ (List.mem_map.mpr ⟨(k, v), hm', rfl⟩))
      simp only [mapGet, hk, if_false]
      exact ih hn.2 hm'

theorem mem_of_mapGet_some {α : Type} {m : List (String × α)} {k : String} {v : α}
    (h : mapGet m k = some v) : (k, v) ∈ m := by
  induction m with
  | nil => simp [mapGet] at h
  | cons p rest ih =>
    by_cases hp : p.1 = k
    · simp only [mapGet, hp, if_true, Option.some.injEq] at h
      subst h
      exact hp ▸ (List.mem_cons_self _ _ : (p.1, p.2) ∈ (p.1, p.2) :: rest)
    · simp only [mapGet, hp, if_false] at h
      exact List.mem_cons_of_mem _ (ih h)

/-! ### Lemmas about the bucket accumulation fold -/

theorem totalFor_nil (k : String) : totalFor k [] = 0 := rfl

theorem totalFor_cons (k : String) (p : String × ℚ) (l : List (String × ℚ)) :
    totalFor k (p :: l) = if p.1 = k then p.2 + totalFor k l else totalFor k l := by
  by_cases h : p.1 = k <;> simp [totalFor, h]

theorem bucketAcc_get_some {m : List (String × ℚ)} {k : String} {v : ℚ}
    (l : List (String × ℚ)) (h : mapGet m k = some v) :
    mapGet (bucketAcc m l) k = some (v + totalFor k l) := by
  induction l generalizing m v with
  | nil => simpa [bucketAcc, totalFor] using h
  | cons p rest ih =>
    show mapGet (bucketAcc (mapSet m p.1 ((mapGet m p.1).getD 0 + p.2)) rest) k = _
    by_cases hp : p.1 = k
    · subst hp
      rw [h]
      have h' := mapGet_mapSet_self m p.1 (v + p.2)
      rw [ih (by simpa using h')]
      rw [totalFor_cons]
      simp [add_assoc]
    · have h' : mapGet (mapSet m p.1 ((mapGet m p.1).getD 0 + p.2)) k = some v := by
        rw [mapGet_mapSet_ne m _ hp, h]
      rw [ih h', totalFor_cons, if_neg hp]

theorem bucketAcc_get_none {m : List (String × ℚ)} {k : String}
    (l : List (String × ℚ)) (h : mapGet m k = none) :
    mapGet (bucketAcc m l) k =
      if k ∈ l.map Prod.fst then some (totalFor k l) else none := by
  induction l generalizing m with
  | nil => simpa [bucketAcc, totalFor] using h
  | cons p rest ih =>
    show mapGet (bucketAcc (mapSet m p.1 ((mapGet m p.1).getD 0 + p.2)) rest) k = _
    by_cases hp : p.1 = k
    · subst hp
      rw [h]
      have h' := mapGet_mapSet_self m p.1 ((0 : ℚ) + p.2)
      rw [bucketAcc_get_some rest (by simpa using h')]
      rw [totalFor_cons]
      simp [add_assoc]
    · have h' : mapGet (mapSet m p.1 ((mapGet m p.1).getD 0 + p.2)) k = none := by
        rw [mapGet_mapSet_ne m _ hp, h]
      rw [ih h', totalFor_cons, if_neg hp]
      have hk : k ≠ p.1 := fun hk => hp hk.symm
      have hiff : (k ∈ rest.map Prod.fst) ↔ (k ∈ p.1 :: rest.map Prod.fst) := by
        simp [List.mem_cons, hk]
      exact if_congr hiff rfl rfl

theorem valuesSum_mapSet_add (m : List (String × ℚ)) (k : String) (v : ℚ) :
    valuesSum (mapSet m k ((mapGet m k).getD 0 + v)) = valuesSum m + v := by
  induction m with
  | nil => simp [mapSet, mapGet, valuesSum]
  | cons p rest ih =>
    by_cases h : p.1 = k
    · simp only [mapSet, mapGet, h, if_true, valuesSum, List.map_cons, List.sum_cons,
        Option.getD_some]
      ring
    · simp only [mapSet, mapGet, h, if_false, valuesSum, List.map_cons, List.sum_cons]
      simp only [valuesSum] at ih
      rw [ih]
      ring

theorem valuesSum_bucketAcc (m : List (String × ℚ)) (l : List (String × ℚ)) :
    valuesSum (bucketAcc m l) = valuesSum m + (l.map (·.2)).sum := by
  induction l generalizing m with
  | nil => simp [bucketAcc, valuesSum]
  | cons p rest ih =>
    show valuesSum (bucketAcc (mapSet m p.1 ((mapGet m p.1).getD 0 + p.2)) rest) = _
    rw [ih, valuesSum_mapSet_add]
    simp [add_assoc, add_comm, add_left_comm]

theorem keys_nodup_bucketAcc (m : List (String × ℚ)) (l : List (String × ℚ))
    (h : (m.map Prod.fst).Nodup) : ((bucketAcc m l).map Prod.fst).Nodup := by
  induction l generalizing m with
  | nil => simpa [bucketAcc] using h
  | cons p rest ih =>
    exact ih _ (keys_nodup_mapSet m p.1 _ h)

theorem totalFor_map_key {α : Type} (k : String) (key : α → String) (f : α → ℚ)
    (l : List α) :
    totalFor k (l.map (fun t => (key t, f t))) =
      ((l.filter (fun t => key t = k)).map f).sum := by
  induction l with
  | nil => rfl
  | cons t rest ih =>
    by_cases h : key t = k <;>
      simp [List.filter_cons, totalFor_cons, h, ih]

/-! ### Permutation lemmas for the stable sort -/

theorem stableInsert_perm {α : Type} (le : α → α → Bool) (x : α) (l : List α) :
    (stableInsert le x l).Perm (x :: l) := by
  induction l with
  | nil => simp [stableInsert]
  | cons y ys ih =>
    by_cases h : le y x
    · simp only [stableInsert, h, if_true]
      exact (ih.cons y).trans (List.Perm.swap x y ys)
    · simp [stableInsert, h]

theorem jsSortStable_perm {α : Type} (le : α → α → Bool) (l : List α) :
    (jsSortStable le l).Perm l := by
  have aux : ∀ (l acc : List α),
      (l.foldl (fun a x => stableInsert le x a) acc).Perm (acc ++ l) := by
    intro l
    induction l with
    | nil => simp
    | cons x xs ih =>
      intro acc
      exact ((ih _).trans
        ((stableInsert_perm le x acc).append_right xs)).trans List.perm_middle.symm
  simpa using aux l []


/-! ### C1: getSpendingOverTime conserves totals -/

/-- C1: for every transaction list, filter specification, store mapping and
interval (and any week-key function, covering the environment-dependent
week bucketing), each bucket of `getSpendingOverTime` holds the sum of
`cost` over the filtered transactions whose key is the bucket's label,
and the bucket amounts sum to the total cost of the filtered
transactions. -/
theorem getSpendingOverTime_conserves (weekFn : String → String)
    (transactions : List Transaction) (filters : AnalysisFilters)
    (storeMappings : StoreMappings) (interval : Interval) :
    (∀ b ∈ getSpendingOverTime weekFn transactions filters storeMappings interval,
        b.amount = bucketTotal weekFn transactions filters storeMappings interval b.label)
    ∧ ((getSpendingOverTime weekFn transactions filters storeMappings interval).map
        (·.amount)).sum
      = ((filterTransactions transactions filters storeMappings).map (·.cost)).sum := by
  set filtered := filterTransactions transactions filters storeMappings with hf
  set contribs := filtered.map (fun t => (groupKey weekFn interval t, t.cost)) with hc
  set grouped := bucketAcc [] contribs with hg
  have hperm : (getSpendingOverTime weekFn transactions filters storeMappings interval).Perm
      (grouped.map (fun p => ⟨p.1, p.2⟩)) := by
    simp only [getSpendingOverTime]
    exact jsSortStable_perm _ _
  constructor
  · intro b hb
    have hb' : b ∈ grouped.map (fun p => (⟨p.1, p.2⟩ : SpendingData)) :=
      hperm.mem_iff.mp hb
    rcases List.mem_map.mp hb' with ⟨p, hp, rfl⟩
    have hnodup : ((bucketAcc [] contribs).map Prod.fst).Nodup :=
      keys_nodup_bucketAcc [] contribs (by simp)
    have hget : mapGet grouped p.1 = some p.2 :=
      mapGet_of_mem_nodup (hg ▸ hnodup) hp
    have hnone : mapGet ([] : List (String × ℚ)) p.1 = none := rfl
    rw [hg, bucketAcc_get_none contribs hnone] at hget
    by_cases hmem : p.1 ∈ contribs.map Prod.fst
    · rw [if_pos hmem] at hget
      have : p.2 = totalFor p.1 contribs := by
        injection hget with h
        exact h.symm
      show p.2 = bucketTotal weekFn transactions filters storeMappings interval p.1
      rw [this, hc, totalFor_map_key, bucketTotal]
    · rw [if_neg hmem] at hget
      cases hget
  · have hsum : ((getSpendingOverTime weekFn transactions filters storeMappings
        interval).map (·.amount)).sum
        = ((grouped.map (fun p => (⟨p.1, p.2⟩ : SpendingData))).map (·.amount)).sum :=
      (hperm.map (·.amount)).sum_eq
    rw [hsum]
    have : (grouped.map (fun p => (⟨p.1, p.2⟩ : SpendingData))).map (·.amount)
        = grouped.map (·.2) := by
      simp [List.map_map]
    rw [this]
    have hv : (grouped.map (·.2)).sum = valuesSum grouped := rfl
    rw [hv, hg, valuesSum_bucketAcc, hc]
    simp only [valuesSum, List.map_map, List.map_nil, List.sum_nil, zero_add]
    rfl

/-- Witness for C1: at a one-transaction input the single day bucket is in
the output and the theorem instantiates to its conservation equation. -/
theorem getSpendingOverTime_conserves_witness :
    (⟨"2025-01-05", (42 : ℚ)⟩ : SpendingData) ∈ getSpendingOverTime id [wTxn] {} [] .day
    ∧ (⟨"2025-01-05", (42 : ℚ)⟩ : SpendingData).amount
        = bucketTotal id [wTxn] {} [] .day "2025-01-05" := by
  have hmem : (⟨"2025-01-05", (42 : ℚ)⟩ : SpendingData)
      ∈ getSpendingOverTime id [wTxn] {} [] .day := by
    simp [wTxn, getSpendingOverTime, filterTransactions, passesFilters,
      createStoreMapping, strActive, listActive, bucketAcc, mapSet, mapGet,
      groupKey, jsSortStable, stableInsert]
  exact ⟨hmem, (getSpendingOverTime_conserves id [wTxn] {} [] .day).1 _ hmem⟩

/-! ### C2: the balance ledger -/

theorem accumBalances_eq_bucketAcc (l : List Transaction) :
    accumBalances l =
      bucketAcc [] ((l.flatMap (·.shares)).map (fun s => (s.name, s.amount))) := by
  suffices h : ∀ m, l.foldl
      (fun m t => t.shares.foldl
        (fun m' s => mapSet m' s.name ((mapGet m' s.name).getD 0 + s.amount)) m) m
      = bucketAcc m ((l.flatMap (·.shares)).map (fun s => (s.name, s.amount))) by
    exact h []
  induction l with
  | nil => intro m; rfl
  | cons t ts ih =>
    intro m
    simp only [List.foldl_cons, List.flatMap_cons, List.map_append]
    rw [show bucketAcc m ((t.shares.map (fun s => (s.name, s.amount)))
          ++ (ts.flatMap (·.shares)).map (fun s => (s.name, s.amount)))
        = bucketAcc (bucketAcc m (t.shares.map (fun s => (s.name, s.amount))))
          ((ts.flatMap (·.shares)).map (fun s => (s.name, s.amount)))
      from List.foldl_append _ _ _ _]
    rw [ih]
    congr 1
    rw [bucketAcc, List.foldl_map]

/-- C2: for every transaction list and every person appearing in some
share, the final running balance the ledger stores for that person is the
sum of all share amounts bearing that person's name across all
transactions. -/
theorem currentBalance_eq_shareSum (transactions : List Transaction)
    (person : String) (h : person ∈ shareNames transactions) :
    currentBalance transactions person = some (shareSum transactions person) := by
  have hperm : (sortByDate transactions).Perm transactions := jsSortStable_perm _ _
  have hflat : ((sortByDate transactions).flatMap (·.shares)).Perm
      (transactions.flatMap (·.shares)) := hperm.flatMap_right _
  set contribs := ((sortByDate transactions).flatMap (·.shares)).map
    (fun s => (s.name, s.amount)) with hc
  have h1 : currentBalance transactions person = mapGet (bucketAcc [] contribs) person := by
    rw [currentBalance, accumBalances_eq_bucketAcc]
  have hmemkeys : person ∈ contribs.map Prod.fst := by
    have : contribs.map Prod.fst = ((sortByDate transactions).flatMap (·.shares)).map (·.name) := by
      rw [hc, List.map_map]; rfl
    rw [this]
    have hm : person ∈ (transactions.flatMap (·.shares)).map (·.name) := h
    exact (hflat.map (·.name)).mem_iff.mpr hm
  rw [h1, bucketAcc_get_none (m := []) contribs rfl, if_pos hmemkeys]
  congr 1
  rw [hc, totalFor_map_key]
  have : (((sortByDate transactions).flatMap (·.shares)).filter
        (fun s => s.name = person)).Perm
      ((transactions.flatMap (·.shares)).filter (fun s => s.name = person)) :=
    hflat.filter _
  rw [shareSum]
  exact (this.map (·.amount)).sum_eq

/-- Witness for C2: person "A" appears in the Mayuri transactions and the
ledger's balance for "A" is the sum of A's share amounts. -/
theorem currentBalance_eq_shareSum_witness :
    "A" ∈ shareNames [mayuri1, mayuri2]
    ∧ currentBalance [mayuri1, mayuri2] "A" = some (shareSum [mayuri1, mayuri2] "A") :=
  ⟨by decide, currentBalance_eq_shareSum [mayuri1, mayuri2] "A" (by decide)⟩

/-! ### C3: the Mayuri end-to-end grouping scenario -/

/-- C3 counterexample: on the spec's two-transaction scenario the code does
NOT return the single grouping `⟨"Mayuri", ["Mayuri Store"]⟩` the claim
requires. -/
theorem mayuri_not_grouped :
    analyzeSimilarStores [mayuri1, mayuri2]
      ≠ [⟨"Mayuri", ["Mayuri Store"]⟩] := by decide

/-- C3 amended: the normalized names "mayuri" and "mayuri store" are at
Levenshtein distance 6 with maximal length 12, similarity 1 − 6/12 = 0.5,
which is not above the 0.8 threshold, so `analyzeSimilarStores` returns no
grouping at all on the scenario's input. -/
theorem mayuri_returns_no_grouping :
    analyzeSimilarStores [mayuri1, mayuri2] = []
    ∧ levenshtein (normalizeName "Mayuri") (normalizeName "Mayuri Store") = 6
    ∧ (max (normalizeName "Mayuri").length (normalizeName "Mayuri Store").length = 12)
    ∧ similarityAbove 6 12 = false := by decide

/-! ### C9: splitGroup on an empty split list -/

/-- C9 counterexample: with an empty `namesToSplit` the call does not
return a result at all — `findMostFrequent([])` evaluates `[][0][0]` and
throws (modelled as `none`) — contradicting the claim that it returns
normally with an empty-variations group. -/
theorem splitGroup_empty_counterexample :
    splitGroup groupABC [] [txnA] = none := by decide

/-- C9 amended: for every group and transaction list, `splitGroup` with an
empty `namesToSplit` list throws (returns `none` in the model) instead of
returning an empty-variations group. -/
theorem splitGroup_empty_throws (group : StoreGrouping)
    (transactions : List Transaction) :
    splitGroup group [] transactions = none := rfl

/-! ### C4 and C10: applyStoreMappings -/

theorem innerFold_get_some {vs : List String} {acc : List (String × String)}
    {c₀ x c : String}
    (h : mapGet (vs.foldl (fun a v => mapSet a v c₀) acc) x = some c) :
    mapGet acc x = some c ∨ (c = c₀ ∧ x ∈ vs) := by
  induction vs generalizing acc with
  | nil => exact Or.inl h
  | cons v vs' ih =>
    rcases ih h with h' | h'
    · by_cases hx : v = x
      · subst hx
        rw [mapGet_mapSet_self] at h'
        injection h' with h'
        exact Or.inr ⟨h'.symm, List.mem_cons_self _ _⟩
      · rw [mapGet_mapSet_ne acc _ hx] at h'
        exact Or.inl h'
    · exact Or.inr ⟨h'.1, List.mem_cons_of_mem _ h'.2⟩

theorem reverseMap_get_some {mappings : StoreMappings} {x c : String}
    (h : mapGet (reverseMap mappings) x = some c) :
    ∃ p ∈ mappings, p.1 = c ∧ x ∈ p.2 := by
  suffices aux : ∀ (ms : StoreMappings) (acc : List (String × String)),
      mapGet (ms.foldl (fun a p => p.2.foldl (fun a' v => mapSet a' v p.1) a) acc) x = some c →
      mapGet acc x = some c ∨ ∃ p ∈ ms, p.1 = c ∧ x ∈ p.2 by
    rcases aux mappings [] h with h' | h'
    · cases h'
    · exact h'
  intro ms
  induction ms with
  | nil => exact fun acc h' => Or.inl h'
  | cons p rest ih =>
    intro acc h'
    rcases ih _ h' with h'' | h''
    · rcases innerFold_get_some h'' with h3 | h3
      · exact Or.inl h3
      · exact Or.inr ⟨p, List.mem_cons_self _ _, h3.1.symm, h3.2⟩
    · rcases h'' with ⟨q, hq, hqc, hqx⟩
      exact Or.inr ⟨q, List.mem_cons_of_mem _ hq, hqc, hqx⟩

/-- A name that occurs in no variations list is absent from the reverse
index. -/
theorem reverseMap_get_none {mappings : StoreMappings} {x : String}
    (h : ∀ p ∈ mappings, x ∉ p.2) : mapGet (reverseMap mappings) x = none := by
  cases hx : mapGet (reverseMap mappings) x with
  | none => rfl
  | some c =>
    rcases reverseMap_get_some hx with ⟨p, hp, _, hxp⟩
    exact absurd hxp (h p hp)

/-- C4 counterexample: with the chained mapping `{B: [A], C: [B]}` a
transaction at "A" is renamed to "B" by one application and to "C" by a
second one, so `applyStoreMappings` is not idempotent for every mapping. -/
theorem applyStoreMappings_not_idempotent :
    applyStoreMappings (applyStoreMappings [txnA] chainMapping) chainMapping
      ≠ applyStoreMappings [txnA] chainMapping := by decide

/-- C4 amended: `applyStoreMappings` is idempotent for every mapping in
which no canonical name occurs among the variations (the chained-mapping
counterexample is exactly what this hypothesis excludes): after one pass
every description is either unmapped or a canonical name, and neither is
renamed again. -/
theorem applyStoreMappings_idempotent (transactions : List Transaction)
    (mappings : StoreMappings) (h : ∀ p ∈ mappings, ∀ q ∈ mappings, p.1 ∉ q.2) :
    applyStoreMappings (applyStoreMappings transactions mappings) mappings
      = applyStoreMappings transactions mappings := by
  show List.map _ (List.map _ transactions) = List.map _ transactions
  rw [List.map_map]
  apply List.map_congr_left
  intro t _
  show (fun t => match mapGet (reverseMap mappings) t.description with
      | some c => { t with description := c }
      | none => t) (match mapGet (reverseMap mappings) t.description with
      | some c => { t with description := c }
      | none => t) = _
  cases hx : mapGet (reverseMap mappings) t.description with
  | none => simp [hx]
  | some c =>
    rcases reverseMap_get_some hx with ⟨p, hp, hpc, _⟩
    have hc : mapGet (reverseMap mappings) c = none :=
      reverseMap_get_none (fun q hq => hpc ▸ h p hp q hq)
    simp [hx, hc]

/-- Witness for C4: the mapping `{C: [A, B]}` has no canonical name among
its variations, and applying it twice to the "A" transaction equals
applying it once. -/
theorem applyStoreMappings_idempotent_witness :
    (∀ p ∈ plainMapping, ∀ q ∈ plainMapping, p.1 ∉ q.2)
    ∧ applyStoreMappings (applyStoreMappings [txnA] plainMapping) plainMapping
      = applyStoreMappings [txnA] plainMapping :=
  ⟨by decide, applyStoreMappings_idempotent [txnA] plainMapping (by decide)⟩

/-- C10: `applyStoreMappings` preserves the length and, at every index,
every field except possibly the description; when the description does
change, the new value is the canonical name the reverse index assigns to
the input description. -/
theorem applyStoreMappings_frame (transactions : List Transaction)
    (mappings : StoreMappings) :
    (applyStoreMappings transactions mappings).length = transactions.length
    ∧ ∀ i, i < transactions.length →
      ((applyStoreMappings transactions mappings).getD i defaultTxn).date
          = (transactions.getD i defaultTxn).date
      ∧ ((applyStoreMappings transactions mappings).getD i defaultTxn).category
          = (transactions.getD i defaultTxn).category
      ∧ ((applyStoreMappings transactions mappings).getD i defaultTxn).cost
          = (transactions.getD i defaultTxn).cost
      ∧ ((applyStoreMappings transactions mappings).getD i defaultTxn).currency
          = (transactions.getD i defaultTxn).currency
      ∧ ((applyStoreMappings transactions mappings).getD i defaultTxn).shares
          = (transactions.getD i defaultTxn).shares
      ∧ (((applyStoreMappings transactions mappings).getD i defaultTxn).description
            ≠ (transactions.getD i defaultTxn).description →
          mapGet (reverseMap mappings) (transactions.getD i defaultTxn).description
            = some ((applyStoreMappings transactions mappings).getD i defaultTxn).description) := by
  constructor
  · exact List.length_map _ _
  · intro i hi
    have hmap : applyStoreMappings transactions mappings
        = transactions.map (fun t =>
            match mapGet (reverseMap mappings) t.description with
            | some c => { t with description := c }
            | none => t) := rfl
    have hgd : (applyStoreMappings transactions mappings).getD i defaultTxn
        = (fun t => match mapGet (reverseMap mappings) t.description with
            | some c => { t with description := c }
            | none => t) (transactions.getD i defaultTxn) := by
      rw [hmap, List.getD_eq_getElem?_getD, List.getElem?_map,
        List.getElem?_eq_getElem hi, List.getD_eq_getElem?_getD,
        List.getElem?_eq_getElem hi]
      rfl
    rw [hgd]
    set t := transactions.getD i defaultTxn with ht
    cases hx : mapGet (reverseMap mappings) t.description with
    | none => simp [hx]
    | some c => simp [hx]

/-- Witness for C10: index 0 of the one-transaction list under the
`{X: [Y]}` mapping. -/
theorem applyStoreMappings_frame_witness :
    0 < ([txnY] : List Transaction).length
    ∧ ((applyStoreMappings [txnY] mappingXY).getD 0 defaultTxn).cost
        = (([txnY] : List Transaction).getD 0 defaultTxn).cost :=
  ⟨by decide, ((applyStoreMappings_frame [txnY] mappingXY).2 0 (by decide)).2.2.1⟩

/-! ### C6: pagination of getDetailedTransactions -/

theorem flatten_chunks {α : Type} (k : ℕ) :
    ∀ (n : ℕ) (l : List α), l.length ≤ n * k →
      ((List.range n).map (fun i => (l.drop (i * k)).take k)).flatten = l := by
  intro n
  induction n with
  | zero =>
    intro l hl
    have hnil : l = [] := List.length_eq_zero.mp (Nat.le_zero.mp (by simpa using hl))
    simp [hnil]
  | succ n ih =>
    intro l hl
    rw [List.range_succ_eq_map, List.map_cons, List.map_map, List.flatten_cons]
    have htail : (List.map ((fun i => (l.drop (i * k)).take k) ∘ Nat.succ)
          (List.range n)).flatten = l.drop k := by
      have hcomp : (fun i => (l.drop (i * k)).take k) ∘ Nat.succ
          = fun i => ((l.drop k).drop (i * k)).take k := by
        funext i
        simp only [Function.comp_apply]
        rw [List.drop_drop]
        congr 1
        rw [Nat.succ_mul]
        ring_nf
      rw [hcomp]
      apply ih
      have h1 := List.length_drop k l
      have h2 : (n + 1) * k = n * k + k := Nat.succ_mul n k
      omega
    rw [htail]
    simp [List.take_append_drop]

/-- C6 counterexample: with the mapping `{X: [Y]}` the single page returned
for the "Y" transaction carries the canonical description "X", so the
concatenation of all pages is not the filtered transaction list itself. -/
theorem pagination_counterexample :
    ((List.range 1).map
        (fun i => (getDetailedTransactions [txnY] {} mappingXY (i + 1) 1).1)).flatten
      ≠ filterTransactions [txnY] {} mappingXY := by decide

/-- C6 amended: for `pageSize ≥ 1`, concatenating the `transactions` fields
of pages 1 through `⌈total / pageSize⌉` yields exactly the canonicalized
filtered list (the filtered transactions with descriptions rewritten to
canonical names), each element once, in the original relative order; it is
the filtered list itself when the mapping renames none of its
descriptions. -/
theorem getDetailedTransactions_pages (transactions : List Transaction)
    (filters : AnalysisFilters) (storeMappings : StoreMappings)
    (pageSize : ℕ) (h : 1 ≤ pageSize) :
    ((List.range
        (((getDetailedTransactions transactions filters storeMappings 1 pageSize).2
            + pageSize - 1) / pageSize)).map
      (fun i => (getDetailedTransactions transactions filters storeMappings
        (i + 1) pageSize).1)).flatten
      = transformedTransactions transactions filters storeMappings := by
  set l := transformedTransactions transactions filters storeMappings with hl
  have htot : (getDetailedTransactions transactions filters storeMappings 1 pageSize).2
      = l.length := rfl
  rw [htot]
  have hpage : ∀ i, (getDetailedTransactions transactions filters storeMappings
      (i + 1) pageSize).1 = (l.drop (i * pageSize)).take pageSize := by
    intro i
    show (l.drop ((i + 1 - 1) * pageSize)).take pageSize = _
    norm_num
  simp only [hpage]
  apply flatten_chunks pageSize
  have hmod := Nat.div_add_mod (l.length + pageSize - 1) pageSize
  have hlt : (l.length + pageSize - 1) % pageSize < pageSize := Nat.mod_lt _ h
  have hcomm : pageSize * ((l.length + pageSize - 1) / pageSize)
      = ((l.length + pageSize - 1) / pageSize) * pageSize := Nat.mul_comm _ _
  omega

/-- Witness for C6: the concrete instance at page size 1. -/
theorem getDetailedTransactions_pages_witness :
    1 ≤ 1
    ∧ ((List.range
          (((getDetailedTransactions [txnY] ({} : AnalysisFilters) mappingXY 1 1).2
              + 1 - 1) / 1)).map
        (fun i => (getDetailedTransactions [txnY] ({} : AnalysisFilters) mappingXY
          (i + 1) 1).1)).flatten
      = transformedTransactions [txnY] ({} : AnalysisFilters) mappingXY :=
  ⟨by decide, getDetailedTransactions_pages [txnY] {} mappingXY 1 (by decide)⟩

/-! ### C5: invariants of analyzeSimilarStores -/

theorem mem_mapSet {α : Type} {m : List (String × α)} {k : String} {v : α}
    {e : String × α} (h : e ∈ mapSet m k v) : e ∈ m ∨ e = (k, v) := by
  induction m with
  | nil =>
    simp only [mapSet, List.mem_singleton] at h
    exact Or.inr h
  | cons p rest ih =>
    by_cases hp : p.1 = k
    · simp only [mapSet, hp, if_true, List.mem_cons] at h
      rcases h with rfl | h
      · exact Or.inr rfl
      · exact Or.inl (List.mem_cons_of_mem _ h)
    · simp only [mapSet, hp, if_false, List.mem_cons] at h
      rcases h with rfl | h
      · exact Or.inl (List.mem_cons_self _ _)
      · rcases ih h with h' | h'
        · exact Or.inl (List.mem_cons_of_mem _ h')
        · exact Or.inr h'

theorem dedupAux_subset {l : List String} :
    ∀ {seen : List String} {x : String}, x ∈ dedupAux seen l → x ∈ l := by
  induction l with
  | nil => intro seen x h; cases h
  | cons y ys ih =>
    intro seen x h
    by_cases hy : seen.contains y
    · simp only [dedupAux, hy, if_true] at h
      exact List.mem_cons_of_mem _ (ih h)
    · simp only [dedupAux, hy, Bool.false_eq_true, if_false, List.mem_cons] at h
      rcases h with hxy | h
      · exact hxy ▸ List.mem_cons_self _ _
      · exact List.mem_cons_of_mem _ (ih h)

theorem dedupFirst_subset {l : List String} {x : String}
    (h : x ∈ dedupFirst l) : x ∈ l := dedupAux_subset h

theorem argmaxFirst_aux_mem {rest : List (String × ℕ)} :
    ∀ {e : String × ℕ},
      rest.foldl (fun best p => if p.2 > best.2 then p else best) e ∈ e :: rest := by
  induction rest with
  | nil => intro e; exact List.mem_singleton.mpr rfl
  | cons p ps ih =>
    intro e
    simp only [List.foldl_cons]
    by_cases hp : p.2 > e.2
    · rw [if_pos hp]
      rcases List.mem_cons.mp (ih (e := p)) with h | h
      · rw [h]
        exact List.mem_cons_of_mem _ (List.mem_cons_self _ _)
      · exact List.mem_cons_of_mem _ (List.mem_cons_of_mem _ h)
    · rw [if_neg hp]
      rcases List.mem_cons.mp (ih (e := e)) with h | h
      · rw [h]
        exact List.mem_cons_self _ _
      · exact List.mem_cons_of_mem _ (List.mem_cons_of_mem _ h)

theorem argmaxFirst_mem {l : List (String × ℕ)} {e : String × ℕ}
    (h : argmaxFirst l = some e) : e ∈ l := by
  cases l with
  | nil => cases h
  | cons p rest =>
    simp only [argmaxFirst, Option.some.injEq] at h
    exact h ▸ argmaxFirst_aux_mem

theorem countsFold_key_mem {ts : List Transaction} {names : List String} :
    ∀ {m : List (String × ℕ)} {e : String × ℕ},
      e ∈ names.foldl (fun m' n => mapSet m' n (countOcc n ts)) m →
      e ∈ m ∨ e.1 ∈ names := by
  induction names with
  | nil => intro m e h; exact Or.inl h
  | cons n rest ih =>
    intro m e h
    rcases ih h with h' | h'
    · rcases mem_mapSet h' with h'' | h''
      · exact Or.inl h''
      · exact Or.inr (h'' ▸ List.mem_cons_self _ _)
    · exact Or.inr (List.mem_cons_of_mem _ h')

theorem mapSet_ne_nil {α : Type} (m : List (String × α)) (k : String) (v : α) :
    mapSet m k v ≠ [] := by
  cases m with
  | nil => simp [mapSet]
  | cons p rest =>
    by_cases hp : p.1 = k <;> simp [mapSet, hp]

theorem countsFold_ne_nil {ts : List Transaction} {names : List String} :
    ∀ {m : List (String × ℕ)}, names ≠ [] ∨ m ≠ [] →
      names.foldl (fun m' n => mapSet m' n (countOcc n ts)) m ≠ [] := by
  induction names with
  | nil =>
    intro m h
    rcases h with h | h
    · exact absurd rfl h
    · exact h
  | cons n rest ih =>
    intro m _
    exact ih (Or.inr (mapSet_ne_nil m n (countOcc n ts)))

/-- `findMostFrequent` on a nonempty name list returns one of the names. -/
theorem findMostFrequent_mem (ts : List Transaction) {names : List String}
    (h : names ≠ []) : ∃ c, findMostFrequent names ts = some c ∧ c ∈ names := by
  have hne : names.foldl (fun m' n => mapSet m' n (countOcc n ts)) [] ≠ [] :=
    countsFold_ne_nil (Or.inl h)
  cases hc : names.foldl (fun m' n => mapSet m' n (countOcc n ts)) [] with
  | nil => exact absurd hc hne
  | cons p rest =>
    refine ⟨(rest.foldl (fun best q => if q.2 > best.2 then q else best) p).1, ?_, ?_⟩
    · show (argmaxFirst (names.foldl (fun m' n => mapSet m' n (countOcc n ts)) [])).map
          Prod.fst = _
      rw [hc]
      rfl
    · have hm : (rest.foldl (fun best q => if q.2 > best.2 then q else best) p)
          ∈ names.foldl (fun m' n => mapSet m' n (countOcc n ts)) [] := by
        rw [hc]; exact argmaxFirst_aux_mem
      rcases countsFold_key_mem hm with h' | h'
      · cases h'
      · exact h'

/-- The inner similarity-collection fold keeps its name list duplicate
free, inside the processed set, and inside `{orig} ∪ names`. -/
theorem collect_fold_inv (orig norm : String) (names : List String) :
    ∀ (l : List (String × String)) (acc : List String × List String),
      (∀ p ∈ l, p.1 ∈ names) →
      acc.1.Nodup → (∀ x ∈ acc.1, x ∈ acc.2) →
      (∀ x ∈ acc.1, x = orig ∨ x ∈ names) →
      (l.foldl (fun acc p =>
        if orig ≠ p.1 && !acc.2.contains p.1
            && similarityAbove (levenshtein norm p.2) (max norm.length p.2.length) then
          (acc.1 ++ [p.1], p.1 :: acc.2)
        else acc) acc).1.Nodup
      ∧ (∀ x ∈ (l.foldl (fun acc p =>
          if orig ≠ p.1 && !acc.2.contains p.1
              && similarityAbove (levenshtein norm p.2) (max norm.length p.2.length) then
            (acc.1 ++ [p.1], p.1 :: acc.2)
          else acc) acc).1,
          x ∈ (l.foldl (fun acc p =>
            if orig ≠ p.1 && !acc.2.contains p.1
                && similarityAbove (levenshtein norm p.2) (max norm.length p.2.length) then
              (acc.1 ++ [p.1], p.1 :: acc.2)
            else acc) acc).2)
      ∧ (∀ x ∈ (l.foldl (fun acc p =>
          if orig ≠ p.1 && !acc.2.contains p.1
              && similarityAbove (levenshtein norm p.2) (max norm.length p.2.length) then
            (acc.1 ++ [p.1], p.1 :: acc.2)
          else acc) acc).1, x = orig ∨ x ∈ names) := by
  intro l
  induction l with
  | nil => intro acc _ h1 h2 h3; exact ⟨h1, h2, h3⟩
  | cons p rest ih =>
    intro acc hl h1 h2 h3
    simp only [List.foldl_cons]
    set cond := (orig ≠ p.1 && !acc.2.contains p.1
      && similarityAbove (levenshtein norm p.2) (max norm.length p.2.length)) with hcond
    have hrest : ∀ q ∈ rest, q.1 ∈ names := fun q hq => hl q (List.mem_cons_of_mem _ hq)
    by_cases hc : cond = true
    · rw [if_pos hc]
      have hnotin2 : p.1 ∉ acc.2 := by
        rw [hcond] at hc
        simp only [Bool.and_eq_true, Bool.not_eq_true'] at hc
        simpa using hc.1.2
      have hnotin1 : p.1 ∉ acc.1 := fun hmem => hnotin2 (h2 _ hmem)
      refine ih (acc.1 ++ [p.1], p.1 :: acc.2) hrest ?_ ?_ ?_
      · simp [List.nodup_append, h1, hnotin1]
      · intro x hx
        rcases List.mem_append.mp hx with hx | hx
        · exact List.mem_cons_of_mem _ (h2 _ hx)
        · simp only [List.mem_singleton] at hx
          exact hx ▸ List.mem_cons_self _ _
      · intro x hx
        rcases List.mem_append.mp hx with hx | hx
        · exact h3 _ hx
        · simp only [List.mem_singleton] at hx
          exact Or.inr (hx ▸ hl p (List.mem_cons_self _ _))
    · rw [if_neg hc]
      exact ih acc hrest h1 h2 h3

/-- Every entry of the groups object that `analyzeLoop` builds satisfies
the grouping invariant. -/
theorem analyzeLoop_inv (pairs : List (String × String)) (ts : List Transaction)
    (names : List String) (hpairs : ∀ p ∈ pairs, p.1 ∈ names) :
    ∀ (rest : List (String × String)) (processed : List String)
      (groups : List (String × List String)),
      (∀ p ∈ rest, p.1 ∈ names) →
      (∀ e ∈ groups, GroupInv names e) →
      ∀ e ∈ analyzeLoop pairs ts rest processed groups, GroupInv names e := by
  intro rest
  induction rest with
  | nil =>
    intro processed groups _ hg e he
    exact hg e he
  | cons pr rest' ih =>
    intro processed groups hrest hg e he
    rcases pr with ⟨orig, norm⟩
    have horig : orig ∈ names := hrest (orig, norm) (List.mem_cons_self _ _)
    have hrest' : ∀ p ∈ rest', p.1 ∈ names :=
      fun p hp => hrest p (List.mem_cons_of_mem _ hp)
    have hunfold : analyzeLoop pairs ts ((orig, norm) :: rest') processed groups
        = (if processed.contains orig then
             analyzeLoop pairs ts rest' processed groups
           else if (collectSimilar orig norm pairs processed).1.length > 1 then
             analyzeLoop pairs ts rest'
               (collectSimilar orig norm pairs processed).2
               (mapSet groups
                 ((findMostFrequent (collectSimilar orig norm pairs processed).1 ts).getD "")
                 ((collectSimilar orig norm pairs processed).1.filter
                   (· ≠ (findMostFrequent
                     (collectSimilar orig norm pairs processed).1 ts).getD "")))
           else analyzeLoop pairs ts rest'
             (collectSimilar orig norm pairs processed).2 groups) := rfl
    by_cases hproc : processed.contains orig
    · rw [hunfold, if_pos hproc] at he
      exact ih processed groups hrest' hg e he
    · have hspec := collect_fold_inv orig norm names pairs ([orig], orig :: processed)
        hpairs (by simp) (by simp) (by simp)
      set r := collectSimilar orig norm pairs processed with hr
      have hrfold : r = pairs.foldl (fun acc p =>
          if orig ≠ p.1 && !acc.2.contains p.1
              && similarityAbove (levenshtein norm p.2) (max norm.length p.2.length) then
            (acc.1 ++ [p.1], p.1 :: acc.2)
          else acc) ([orig], orig :: processed) := rfl
      by_cases hlen : r.1.length > 1
      · have hne : r.1 ≠ [] := by
          intro hnil
          rw [hnil] at hlen
          simp at hlen
        rcases findMostFrequent_mem ts hne with ⟨c, hc, hcmem⟩
        rw [hunfold, if_neg hproc, if_pos hlen] at he
        have hcd : (findMostFrequent r.1 ts).getD "" = c := by rw [hc]; rfl
        refine ih r.2 _ hrest' ?_ e he
        intro e' he'
        rcases mem_mapSet he' with h' | h'
        · exact hg e' h'
        · subst h'
          rw [hcd]
          have hnodup : r.1.Nodup := by rw [hrfold]; exact (hspec).1
          have hnames : ∀ x ∈ r.1, x = orig ∨ x ∈ names := by
            rw [hrfold]; exact (hspec).2.2
          constructor
          · intro hcmem'
            have := List.of_mem_filter hcmem'
            simp at this
          refine ⟨hnodup.filter _, ?_, ?_⟩
          · rcases hnames c hcmem with h'' | h''
            · exact h'' ▸ horig
            · exact h''
          · intro v hv
            have hv' : v ∈ r.1 := List.mem_of_mem_filter hv
            rcases hnames v hv' with h'' | h''
            · exact h'' ▸ horig
            · exact h''
      · rw [hunfold, if_neg hproc, if_neg hlen] at he
        exact ih r.2 groups hrest' hg e he

/-- C5: every grouping returned by `analyzeSimilarStores` has a canonical
name that is not among its variations, pairwise-distinct variations, and
only names that occur as descriptions of input transactions. -/
theorem analyzeSimilarStores_invariants (transactions : List Transaction)
    (g : StoreGrouping) (hg : g ∈ analyzeSimilarStores transactions) :
    g.canonicalName ∉ g.variations ∧ g.variations.Nodup
    ∧ g.canonicalName ∈ transactions.map (·.description)
    ∧ ∀ v ∈ g.variations, v ∈ transactions.map (·.description) := by
  rw [analyzeSimilarStores] at hg
  rcases List.mem_map.mp hg with ⟨e, he, rfl⟩
  have hpairs : ∀ p ∈ (dedupFirst (transactions.map (·.description))).map
      (fun n => (n, normalizeName n)), p.1 ∈ transactions.map (·.description) := by
    intro p hp
    rcases List.mem_map.mp hp with ⟨n, hn, rfl⟩
    exact dedupFirst_subset hn
  have hinv := analyzeLoop_inv _ transactions (transactions.map (·.description))
    hpairs _ [] [] hpairs (by intro e' he'; cases he') e he
  exact hinv

/-- Witness for C5: the Starbucks pair clusters into one grouping and the
theorem instantiates to its invariants. -/
theorem analyzeSimilarStores_invariants_witness :
    (⟨"Starbucks", ["Starbucks!"]⟩ : StoreGrouping) ∈ analyzeSimilarStores sbTxns
    ∧ ((⟨"Starbucks", ["Starbucks!"]⟩ : StoreGrouping).canonicalName
        ∉ (⟨"Starbucks", ["Starbucks!"]⟩ : StoreGrouping).variations
      ∧ (⟨"Starbucks", ["Starbucks!"]⟩ : StoreGrouping).variations.Nodup
      ∧ (⟨"Starbucks", ["Starbucks!"]⟩ : StoreGrouping).canonicalName
          ∈ sbTxns.map (·.description)
      ∧ ∀ v ∈ (⟨"Starbucks", ["Starbucks!"]⟩ : StoreGrouping).variations,
          v ∈ sbTxns.map (·.description)) :=
  ⟨by decide, analyzeSimilarStores_invariants sbTxns _ (by decide)⟩

/-! ### C7 and C8: budget intelligence -/

/-- Every budget recommendation is the record built for its category. -/
theorem mem_budgetRecs {sqrtFn : ℚ → ℚ} {transactions : List Transaction}
    {r : CategoryRec} (hr : r ∈ budgetRecs sqrtFn transactions) :
    ∃ c, r = mkCategoryRec sqrtFn transactions c := by
  rcases List.mem_filterMap.mp hr with ⟨c, _, hc⟩
  by_cases h0 : (categoryTransactions transactions c).length = 0
  · rw [if_pos h0] at hc
    cases hc
  · rw [if_neg h0] at hc
    exact ⟨c, (Option.some.inj hc).symm⟩

theorem varianceOf_nonneg (l : List ℚ) : 0 ≤ varianceOf l := by
  rw [varianceOf]
  split
  · apply div_nonneg
    · apply List.sum_nonneg
      intro x hx
      rcases List.mem_map.mp hx with ⟨y, _, rfl⟩
      positivity
    · positivity
  · exact le_refl 0

/-- C7 counterexample: for a category consisting of one zero-cost
transaction the monthly average is 0 with zero variance, the JS code
computes `1 - 0/0 = NaN`, and the clamp propagates the NaN (`Math.sqrt` is
only evaluated at 0 here, where it is exactly 0, so the model sqrt
`fun _ => 0` is faithful); the confidence is therefore not in [0, 1]. -/
theorem budget_confidence_counterexample :
    (budgetRecs (fun _ => 0) zeroTxns).map (·.confidence) = [none]
    ∧ ¬ ∀ r ∈ budgetRecs (fun _ => 0) zeroTxns,
        ∃ q, r.confidence = some q ∧ 0 ≤ q ∧ q ≤ 1 := by
  have h1 : (budgetRecs (fun _ => 0) zeroTxns).map (·.confidence) = [none] := by
    simp [zeroTxns, budgetRecs, dedupFirst, dedupAux, mkCategoryRec,
      categoryTransactions, monthlyAmountsOf, bucketAcc, mapSet, mapGet,
      monthKey, varianceOf, jsConfidence]
  refine ⟨h1, ?_⟩
  intro hall
  cases hb : budgetRecs (fun _ => 0) zeroTxns with
  | nil =>
    rw [hb] at h1
    cases h1
  | cons r rest =>
    rw [hb] at h1
    simp only [List.map_cons, List.cons.injEq] at h1
    rcases hall r (by rw [hb]; exact List.mem_cons_self _ _) with ⟨q, hq, _⟩
    rw [h1.1] at hq
    cases hq

/-- C7 amended: for every square-root function meeting the contract
`0 ≤ x → 0 ≤ sqrt x`, every recommendation whose category has a nonzero
monthly average carries a confidence in [0, 1]; when the average is 0 the
confidence is either 0 (positive variance: `s/0 = +∞` clamps to 0) or NaN
(zero variance: `0/0`), never a value in between. -/
theorem budget_confidence_in_unit (sqrtFn : ℚ → ℚ)
    (hs : ∀ x, 0 ≤ x → 0 ≤ sqrtFn x) (transactions : List Transaction)
    (r : CategoryRec) (hr : r ∈ budgetRecs sqrtFn transactions) :
    (r.currentMonthlyAverage ≠ 0 → ∃ q, r.confidence = some q ∧ 0 ≤ q ∧ q ≤ 1)
    ∧ (r.currentMonthlyAverage = 0 → r.confidence = some 0 ∨ r.confidence = none) := by
  rcases mem_budgetRecs hr with ⟨c, rfl⟩
  set l := monthlyAmountsOf transactions c with hl
  set s := sqrtFn (varianceOf l) with hsdef
  have hs0 : 0 ≤ s := hs _ (varianceOf_nonneg l)
  constructor
  · intro ha
    have hconf : (mkCategoryRec sqrtFn transactions c).confidence
        = jsConfidence s (mkCategoryRec sqrtFn transactions c).currentMonthlyAverage := rfl
    rw [hconf, jsConfidence, if_pos ha]
    refine ⟨_, rfl, le_max_left 0 _, ?_⟩
    exact max_le (by norm_num) (min_le_left 1 _)
  · intro ha
    have hconf : (mkCategoryRec sqrtFn transactions c).confidence
        = jsConfidence s (mkCategoryRec sqrtFn transactions c).currentMonthlyAverage := rfl
    rw [hconf, ha, jsConfidence]
    rw [if_neg (by simp)]
    by_cases hpos : s > 0
    · rw [if_pos hpos]
      exact Or.inl rfl
    · rw [if_neg hpos, if_neg (not_lt.mpr hs0)]
      exact Or.inr rfl

/-- Witness for C7: the single-category input with cost 42. -/
theorem budget_confidence_in_unit_witness :
    (⟨"Groceries", 42 * (12 / 10), 42, Trend.stable,
        some (max 0 (min 1 (1 - id 0 / 42)))⟩ : CategoryRec) ∈ budgetRecs id [wTxn]
    ∧ (42 : ℚ) ≠ 0
    ∧ ∃ q, (⟨"Groceries", 42 * (12 / 10), 42, Trend.stable,
          some (max 0 (min 1 (1 - id 0 / 42)))⟩ : CategoryRec).confidence = some q
        ∧ 0 ≤ q ∧ q ≤ 1 := by
  have hmem : (⟨"Groceries", 42 * (12 / 10), 42, Trend.stable,
      some (max 0 (min 1 (1 - id 0 / 42)))⟩ : CategoryRec) ∈ budgetRecs id [wTxn] := by
    simp [wTxn, budgetRecs, dedupFirst, dedupAux, mkCategoryRec, categoryTransactions,
      monthlyAmountsOf, bucketAcc, mapSet, mapGet, monthKey, trendOf, lastTwoMean,
      priorTwoMean, varianceOf, jsConfidence]
  exact ⟨hmem, by simp,
    (budget_confidence_in_unit id (fun x hx => hx) [wTxn] _ hmem).1 (by simp)⟩

/-- C8 counterexample: on the three-month category with sums -20, -20, 0
the last-two mean (-10) is below 0.9 times the prior-two mean (that mean
is -10, and 0.9 × -10 = -9), yet the code classifies the trend as
`increasing`, because -10 also exceeds 1.1 × -10 = -11 and the increasing
test is checked first; the claim's "decreasing exactly when below 0.9×"
is false. -/
theorem budget_trend_counterexample :
    (budgetRecs (fun _ => 0) negTxns).map (·.trend) = [Trend.increasing]
    ∧ lastTwoMean (monthlyAmountsOf negTxns "X")
        < 9 / 10 * priorTwoMean (monthlyAmountsOf negTxns "X") := by
  have k1 : monthKey "2025-01-05" = "2025-01" := by decide
  have k2 : monthKey "2025-02-05" = "2025-02" := by decide
  have k3 : monthKey "2025-03-05" = "2025-03" := by decide
  have hm : monthlyAmountsOf negTxns "X" = [-20, -20, 0] := by
    simp [negTxns, monthlyAmountsOf, categoryTransactions, bucketAcc, mapSet,
      mapGet, k1, k2, k3]
  have ht : trendOf [-20, -20, 0] = Trend.increasing := by
    norm_num [trendOf, lastTwoMean, priorTwoMean]
  have hrec : (budgetRecs (fun _ => 0) negTxns).map (·.trend)
      = [trendOf (monthlyAmountsOf negTxns "X")] := by
    simp [budgetRecs, mkCategoryRec, dedupFirst, dedupAux, negTxns,
      categoryTransactions]
  refine ⟨?_, ?_⟩
  · rw [hrec, hm, ht]
  · rw [hm]
    norm_num [lastTwoMean, priorTwoMean]

/-- C8 amended: for every recommendation, `trend = increasing` exactly when
there are at least 3 monthly buckets and the last-two mean exceeds 1.1
times the prior-two mean; `trend = decreasing` exactly when there are at
least 3 buckets, the increasing test fails, and the last-two mean is below
0.9 times the prior-two mean (the increasing test takes precedence — with
a negative prior mean both inequalities can hold at once); fewer than 3
buckets always give `stable`. -/
theorem budget_trend_characterization (sqrtFn : ℚ → ℚ)
    (transactions : List Transaction) (r : CategoryRec)
    (hr : r ∈ budgetRecs sqrtFn transactions) :
    (r.trend = Trend.increasing ↔
      3 ≤ (monthlyAmountsOf transactions r.category).length
      ∧ lastTwoMean (monthlyAmountsOf transactions r.category)
          > 11 / 10 * priorTwoMean (monthlyAmountsOf transactions r.category))
    ∧ (r.trend = Trend.decreasing ↔
      3 ≤ (monthlyAmountsOf transactions r.category).length
      ∧ ¬ lastTwoMean (monthlyAmountsOf transactions r.category)
          > 11 / 10 * priorTwoMean (monthlyAmountsOf transactions r.category)
      ∧ lastTwoMean (monthlyAmountsOf transactions r.category)
          < 9 / 10 * priorTwoMean (monthlyAmountsOf transactions r.category))
    ∧ ((monthlyAmountsOf transactions r.category).length < 3 →
        r.trend = Trend.stable) := by
  rcases mem_budgetRecs hr with ⟨c, rfl⟩
  have hcat : (mkCategoryRec sqrtFn transactions c).category = c := rfl
  have htr : (mkCategoryRec sqrtFn transactions c).trend
      = trendOf (monthlyAmountsOf transactions c) := rfl
  rw [hcat, htr]
  set l := monthlyAmountsOf transactions c with hl
  by_cases h3 : 3 ≤ l.length
  · by_cases hinc : lastTwoMean l > 11 / 10 * priorTwoMean l
    · simp [trendOf, h3, hinc]
    · by_cases hdec : lastTwoMean l < 9 / 10 * priorTwoMean l
      · simp [trendOf, h3, hinc, hdec]
      · simp [trendOf, h3, hinc, hdec]
  · simp [trendOf, h3, Nat.not_le.mp h3]

/-- Witness for C8: the single-month category, which has fewer than 3
monthly buckets and is classified stable. -/
theorem budget_trend_characterization_witness :
    (⟨"Groceries", 42 * (12 / 10), 42, Trend.stable,
        some (max 0 (min 1 (1 - id 0 / 42)))⟩ : CategoryRec) ∈ budgetRecs id [wTxn]
    ∧ (monthlyAmountsOf [wTxn] "Groceries").length < 3
    ∧ (⟨"Groceries", 42 * (12 / 10), 42, Trend.stable,
        some (max 0 (min 1 (1 - id 0 / 42)))⟩ : CategoryRec).trend = Trend.stable := by
  have k1 : monthKey "2025-01-05" = "2025-01" := by decide
  have hmem : (⟨"Groceries", 42 * (12 / 10), 42, Trend.stable,
      some (max 0 (min 1 (1 - id 0 / 42)))⟩ : CategoryRec) ∈ budgetRecs id [wTxn] := by
    simp [wTxn, budgetRecs, dedupFirst, dedupAux, mkCategoryRec, categoryTransactions,
      monthlyAmountsOf, bucketAcc, mapSet, mapGet, monthKey, trendOf, lastTwoMean,
      priorTwoMean, varianceOf, jsConfidence]
  have hlen : (monthlyAmountsOf [wTxn] "Groceries").length < 3 := by
    simp [wTxn, monthlyAmountsOf, categoryTransactions, bucketAcc, mapSet, mapGet, k1]
  exact ⟨hmem, hlen,
    (budget_trend_characterization id [wTxn] _ hmem).2.2 hlen⟩

end SplitViz
